import Mathlib

/-!
# Verification of the `mn` memory-allocation core and JSON helpers

This file embeds, in Lean 4, the data model and operations of the `mn`
library that the verified claims are about.

The repository sources available are `src/unittest/src/unittest_mn.cpp`
(the test suite, a caller of the allocator and container APIs) and
`src/mn/include/mn/Json.h` (the JSON value helpers).  The allocator,
container and map implementations themselves (`Memory.h`, `Pool.h`,
`Map.h`, `Buf.h`, `Ring.h`, ...) are not part of the sources, so those
components are modelled from the specification's words, as marked on each
definition.  The JSON helpers are translated directly from `Json.h`.

Conventions:
* a raw pointer is modelled as `Option Nat` (`none` is the null pointer,
  `some a` an abstract address);
* machine sizes are `Nat` (no allocation in the model ever overflows a
  64-bit size, and the C++ code performs no wrapping arithmetic on sizes);
* fallible operations return `Option` (`none` models a fatal assertion /
  contract violation), while operations documented as "never throws"
  are total functions.
-/

set_option autoImplicit false

namespace Mn

/-- Modelled from the spec: `Block` is a plain `(address, size)` descriptor,
the unit of currency between allocators and callers (`src/mn` block type is
not among the sources).  The null pointer is `none`. -/
structure Block where
  addr : Option Nat
  size : Nat
deriving Repr, DecidableEq

/-- The null block: `address == null`, `size == 0`; signals allocation
failure. -/
def Block.null : Block := ⟨none, 0⟩

/-- Rounds `n` up to the next multiple of the alignment `a`.
`alignUp n 0 = n` so the function is total; real call sites always pass a
power of two, which is nonzero. -/
def alignUp (n a : Nat) : Nat :=
  if a = 0 then n else (n + a - 1) / a * a

/-! ## Stack (linear bump) allocator

Modelled from the spec: "Backed by one fixed-size buffer acquired at
construction ... `allocate` bumps the cursor forward by the aligned size;
fails (null block) when the request would exceed the buffer.
`release(block)` is only valid for the most recently allocated still-live
block (true LIFO); the implementation validates this by comparing
`block.address + block.size` against the current cursor and rejects
(fatal) any out-of-order release. `release_all` resets the cursor to
zero."  Addresses are offsets into the buffer. -/

/-- Modelled from the spec: stack allocator state, a fixed-capacity buffer
plus a bump cursor (`src/mn` stack allocator source is not among the
sources). -/
structure StackState where
  cap : Nat
  cursor : Nat
deriving Repr, DecidableEq

/-- Modelled from the spec: `allocate` on a stack allocator bumps the
cursor forward by the aligned size, failing with a null block (state
untouched) when the request would exceed the buffer.  The returned block
records the aligned size, so that `addr + size` equals the new cursor. -/
def stackAlloc (s : StackState) (size align : Nat) : Block × StackState :=
  let a := alignUp size align
  if s.cursor + a ≤ s.cap then
    (⟨some s.cursor, a⟩, ⟨s.cap, s.cursor + a⟩)
  else
    (Block.null, s)

/-- Modelled from the spec: `release` validates LIFO order by comparing
`block.address + block.size` against the cursor; an out-of-order release
is a fatal contract violation (`none`).  Releasing the null block is a
no-op. -/
def stackRelease (s : StackState) (b : Block) : Option StackState :=
  match b.addr with
  | none => some s
  | some p => if p + b.size = s.cursor then some ⟨s.cap, p⟩ else none

/-- Runs a sequence of `(size, align)` allocation requests on a stack
allocator, collecting the returned blocks; fails (`none`) as soon as an
allocation returns a null block, i.e. succeeds exactly when the whole
sequence stays within the buffer capacity. -/
def stackAllocSeq : StackState → List (Nat × Nat) → Option (List Block × StackState)
  | s, [] => some ([], s)
  | s, (sz, al) :: rest =>
    match stackAlloc s sz al with
    | (b, s1) =>
      match b.addr with
      | none => none
      | some _ =>
        match stackAllocSeq s1 rest with
        | none => none
        | some (bs, s2) => some (b :: bs, s2)

/-- Releases the given blocks in list order, failing (`none`) as soon as
one release is rejected. -/
def stackReleaseSeq : StackState → List Block → Option StackState
  | s, [] => some s
  | s, b :: rest =>
    match stackRelease s b with
    | none => none
    | some s1 => stackReleaseSeq s1 rest

/-! ## Arena (growing bump) allocator

Modelled from the spec: "Maintains a sequence of buckets. `allocate`:
bump-allocate in the last bucket; on exhaustion, allocate a new bucket
sized `max(requested_size, previous_bucket_size * growth_factor)` via the
virtual-memory primitive, append it, and retry. `release` is a no-op by
design."  The virtual-memory primitive is fallible (null block on denial);
it is modelled by an `osGrants` flag plus a fresh-base counter handing out
disjoint address ranges. -/

/-- Modelled from the spec: one arena bucket,
`Bucket = (storage: Block, used: offset)`; `base` is the storage's
address, `size` its byte size. -/
structure ArenaBucket where
  base : Nat
  size : Nat
  used : Nat
deriving Repr, DecidableEq

/-- Modelled from the spec: arena state, an ordered sequence of buckets
(only the last receives new bump allocations), the growth factor, the
initial bucket size requested at construction, and the modelled OS
virtual-memory source. -/
structure ArenaState where
  buckets : List ArenaBucket
  growth : Nat
  initSize : Nat
  freshBase : Nat
  osGrants : Bool
deriving Repr, DecidableEq

/-- Modelled from the spec: arena `allocate` bump-allocates in the last
bucket; on exhaustion it obtains a new bucket of size
`max(requested, last_bucket_size * growth_factor)` from the virtual-memory
primitive (null block when the OS denies the reservation) and allocates
from it. -/
def arenaAlloc (s : ArenaState) (size align : Nat) : Block × ArenaState :=
  let a := alignUp size align
  match s.buckets.getLast? with
  | some bk =>
    if bk.used + a ≤ bk.size then
      (⟨some (bk.base + bk.used), a⟩,
       { s with buckets := s.buckets.dropLast ++ [{ bk with used := bk.used + a }] })
    else if s.osGrants then
      let nsize := max a (bk.size * s.growth)
      (⟨some s.freshBase, a⟩,
       { s with buckets := s.buckets ++ [⟨s.freshBase, nsize, a⟩],
                freshBase := s.freshBase + nsize })
    else
      (Block.null, s)
  | none =>
    if s.osGrants then
      let nsize := max a s.initSize
      (⟨some s.freshBase, a⟩,
       { s with buckets := [⟨s.freshBase, nsize, a⟩],
                freshBase := s.freshBase + nsize })
    else
      (Block.null, s)

/-! ## Pool (fixed-slot) allocator

Modelled from the spec: "Constructed with a fixed `slot_size` and a page
capacity (slots per page). `allocate(size, align)` requires
`size <= slot_size`; pops the free-list head if non-empty, else allocates
a new page, links all its slots into the free list, and pops one.
`release(block)` pushes the slot back onto the free list."  Following the
spec's design note, the intrusive free list is modelled as an explicit
list of free slot addresses. -/

/-- Modelled from the spec: pool allocator state — fixed slot size, slots
per page, the free list of slot addresses (head = most recently freed or
linked slot), and the fresh-base counter standing in for page
acquisition. -/
structure PoolState where
  slotSize : Nat
  slotsPerPage : Nat
  freeList : List Nat
  freshBase : Nat
deriving Repr, DecidableEq

/-- The slot addresses of a freshly acquired page starting at `base`. -/
def poolPageSlots (base slotSize n : Nat) : List Nat :=
  (List.range n).map fun i => base + i * slotSize

/-- Modelled from the spec: `pool_get` pops the free-list head if
non-empty, else acquires a new page, links all its slots into the free
list, and pops one.  Returns `none` when no slot can be produced (a pool
with zero slots per page). -/
def poolGet (s : PoolState) : Option Nat × PoolState :=
  match s.freeList with
  | p :: rest => (some p, { s with freeList := rest })
  | [] =>
    match poolPageSlots s.freshBase s.slotSize s.slotsPerPage with
    | [] => (none, s)
    | p :: rest =>
      (some p, { s with freeList := rest,
                        freshBase := s.freshBase + s.slotsPerPage * s.slotSize })

/-- Modelled from the spec: `pool_put` pushes the slot back onto the free
list (it becomes the new head, hence LIFO reuse). -/
def poolPut (s : PoolState) (p : Nat) : PoolState :=
  { s with freeList := p :: s.freeList }

/-! ## General-purpose allocator

Modelled from the spec: "backs every request onto the process heap (or a
raw virtual-memory mapping for large/page-granularity requests)"; both
paths are fallible and signal failure with a null block.  The heap/OS is
modelled by a grant flag and a fresh-base counter. -/

/-- Modelled from the spec: general-purpose allocator state — the modelled
process heap, which either grants fresh disjoint regions or denies. -/
structure GeneralState where
  osGrants : Bool
  freshBase : Nat
deriving Repr, DecidableEq

/-- Modelled from the spec: general `allocate` obtains `size` bytes from
the heap (null block on denial). -/
def generalAlloc (s : GeneralState) (size _align : Nat) : Block × GeneralState :=
  if s.osGrants then
    (⟨some s.freshBase, size⟩, { s with freshBase := s.freshBase + size })
  else
    (Block.null, s)

/-! ## The allocator tagged union

Modelled from the spec: "model `Allocator` as a closed set of variants
`{General, Stack, Arena, Pool, LeakTracking(inner)}` behind one capability
interface, dispatched by a discriminant". -/

/-- Modelled from the spec: the closed set of allocator strategies.  The
leak-tracking variant wraps an inner allocator and records every
outstanding block as an `(address, size)` pair. -/
inductive Allocator where
  | general (s : GeneralState)
  | stack (s : StackState)
  | arena (s : ArenaState)
  | pool (s : PoolState)
  | leak (inner : Allocator) (outstanding : List (Nat × Nat))
deriving Repr, DecidableEq

/-- Modelled from the spec: the uniform `allocate(size, align) -> Block`
capability, dispatched over the variant.  Pool requests larger than the
slot size are a contract violation and yield a null block in the model;
the leak tracker delegates and records successful allocations.  The
function is total: no variant ever throws. -/
def Allocator.allocate : Allocator → Nat → Nat → Block × Allocator
  | .general s, size, align =>
    let r := generalAlloc s size align
    (r.1, .general r.2)
  | .stack s, size, align =>
    let r := stackAlloc s size align
    (r.1, .stack r.2)
  | .arena s, size, align =>
    let r := arenaAlloc s size align
    (r.1, .arena r.2)
  | .pool s, size, _ =>
    if size ≤ s.slotSize then
      match poolGet s with
      | (some p, s1) => (⟨some p, s.slotSize⟩, .pool s1)
      | (none, s1) => (Block.null, .pool s1)
    else
      (Block.null, .pool s)
  | .leak inner out, size, align =>
    let r := inner.allocate size align
    match r.1.addr with
    | some p => (r.1, .leak r.2 ((p, r.1.size) :: out))
    | none => (r.1, .leak r.2 out)

/-- Modelled from the spec: the uniform `release(block)` capability.
General frees the underlying region (no observable allocator state in the
model), Stack enforces LIFO order (fatal on violation), Arena is a
documented no-op, Pool pushes the slot back onto the free list, and the
leak tracker removes the matching outstanding entry (release of an
address not present is flagged fatal). -/
def Allocator.release : Allocator → Block → Option Allocator
  | .general s, _ => some (.general s)
  | .stack s, b => (stackRelease s b).map .stack
  | .arena s, _ => some (.arena s)
  | .pool s, b =>
    match b.addr with
    | some p => some (.pool (poolPut s p))
    | none => some (.pool s)
  | .leak inner out, b =>
    match b.addr with
    | some p =>
      if out.any (fun e => e.1 = p) then
        (inner.release b).map (fun i => .leak i (out.filter (fun e => e.1 ≠ p)))
      else
        none
    | none => (inner.release b).map (fun i => .leak i out)

/-! ## Allocator-context stack

Modelled from the spec: "Per-thread state holding an ordered sequence of
active allocators, seeded with one General entry. `push(allocator)`
appends; `pop()` removes and returns the top entry, restoring the previous
one as current; `current()` returns the top entry without mutating the
stack."  The top of the stack is the list head. -/

/-- Modelled from the spec: the default General entry the per-thread stack
is seeded with. -/
def generalDefault : Allocator := .general ⟨true, 0⟩

/-- Modelled from the spec: the per-thread context stack, implicitly
initialized with one default General entry before first use. -/
def ctxInit : List Allocator := [generalDefault]

/-- Modelled from the spec: `push(allocator)` appends a new top entry. -/
def ctxPush (ctx : List Allocator) (a : Allocator) : List Allocator :=
  a :: ctx

/-- Modelled from the spec: `current()` returns the top entry without
mutating the stack; the returned pair makes the (un)changed stack
explicit. -/
def ctxCurrent (ctx : List Allocator) : Option Allocator × List Allocator :=
  (ctx.head?, ctx)

/-- Modelled from the spec: `pop()` removes and returns the top entry,
restoring the previous one as current; popping an empty stack is a
contract violation (`none`). -/
def ctxPop : List Allocator → Option (Allocator × List Allocator)
  | [] => none
  | a :: rest => some (a, rest)

/-! ## Allocator-aware container binding

Modelled from the spec: "Each container (dynamic array, hash map, ring
buffer, growable string) stores a captured allocator reference set once at
construction (from an explicit argument or from `current()`), and every
growth, shrink, or destruction routes through that captured reference —
never through `current()` again."  The container's payload is abstracted
to its element count; each operation is given the ambient context stack at
the time of the call and reports which allocator it routed the memory
traffic through. -/

/-- Modelled from the spec: the allocator-aware container model — one
captured allocator plus an abstract payload size.  Stands for all four
containers (dynamic array, hash map, ring buffer, growable string), whose
binding logic is shared. -/
structure Container where
  alloc : Allocator
  count : Nat
deriving Repr, DecidableEq

/-- Modelled from the spec: construction without an explicit allocator
captures `current()` at that instant. -/
def containerNew (ctx : List Allocator) : Container :=
  ⟨(ctxCurrent ctx).1.getD generalDefault, 0⟩

/-- Modelled from the spec: construction with an explicit allocator
captures exactly that argument. -/
def containerNewWith (a : Allocator) : Container :=
  ⟨a, 0⟩

/-- Modelled from the spec: a growth operation routes its (re)allocation
through the captured allocator; the ambient context stack at call time is
passed in only to show it is ignored.  Returns the new container and the
allocator the traffic went through. -/
def containerGrow (c : Container) (_ambient : List Allocator) : Container × Allocator :=
  ({ c with count := c.count + 1 }, c.alloc)

/-- Modelled from the spec: a shrink operation routes through the captured
allocator, ignoring the ambient context stack. -/
def containerShrink (c : Container) (_ambient : List Allocator) : Container × Allocator :=
  ({ c with count := c.count - 1 }, c.alloc)

/-- Modelled from the spec: destruction releases the backing storage
through the captured allocator, ignoring the ambient context stack;
returns the allocator the release went through. -/
def containerDestroy (c : Container) (_ambient : List Allocator) : Allocator :=
  c.alloc

/-! ## Hash map with load-factor rehashing

Modelled from the spec: "The hash map uses open addressing or
bucket-chaining with the same captured allocator for its backing storage
and rehashes on load-factor threshold crossing, preserving all entries."
The bucket-chaining variant is modelled: `nbuckets` chained buckets, an
entry with key `k` lives in bucket `k % nbuckets`.  Keys and values are
machine words (`Nat`); the unit test exercises the map at `int` keys and
values. -/

/-- Modelled from the spec: bucket-chained hash map state (`src/mn/Map.h`
is not among the sources). -/
structure HMap where
  nbuckets : Nat
  buckets : List (List (Nat × Nat))
deriving Repr, DecidableEq

/-- A freshly constructed map: a small fixed number of empty buckets. -/
def hmapEmpty : HMap := ⟨8, List.replicate 8 []⟩

/-- Looks a key up inside one bucket's chain (first match). -/
def bucketFind (k : Nat) : List (Nat × Nat) → Option Nat
  | [] => none
  | (k1, v1) :: rest => if k1 = k then some v1 else bucketFind k rest

/-- Inserts into one bucket's chain: overwrites the entry in place when
the key is already present, else appends. -/
def bucketInsert (k v : Nat) : List (Nat × Nat) → List (Nat × Nat)
  | [] => [(k, v)]
  | (k1, v1) :: rest =>
    if k1 = k then (k, v) :: rest else (k1, v1) :: bucketInsert k v rest

/-- Removes a key from one bucket's chain. -/
def bucketErase (k : Nat) : List (Nat × Nat) → List (Nat × Nat)
  | [] => []
  | (k1, v1) :: rest =>
    if k1 = k then bucketErase k rest else (k1, v1) :: bucketErase k rest

/-- Number of entries stored in the map. -/
def hmapCount (m : HMap) : Nat := (m.buckets.map List.length).sum

/-- Distributes a flat entry list over `n` chained buckets by key modulo
`n`; used when (re)building the table. -/
def hmapDistribute (n : Nat) (entries : List (Nat × Nat)) : List (List (Nat × Nat)) :=
  (List.range n).map fun i => entries.filter fun e => e.1 % n = i

/-- Modelled from the spec: rehashing doubles the bucket array and
redistributes every entry by the new modulus. -/
def hmapRehash (m : HMap) : HMap :=
  ⟨m.nbuckets * 2, hmapDistribute (m.nbuckets * 2) m.buckets.flatten⟩

/-- Inserts an entry into its bucket, without the load-factor check. -/
def hmapInsertRaw (m : HMap) (k v : Nat) : HMap :=
  ⟨m.nbuckets,
   m.buckets.set (k % m.nbuckets)
     (bucketInsert k v (m.buckets.getD (k % m.nbuckets) []))⟩

/-- Modelled from the spec: `map_insert` rehashes when the insertion
would cross the load-factor threshold (3/4 here), then chains the entry
into its bucket, overwriting the value when the key is present. -/
def hmapInsert (m : HMap) (k v : Nat) : HMap :=
  let m1 := if (hmapCount m + 1) * 4 > m.nbuckets * 3 then hmapRehash m else m
  hmapInsertRaw m1 k v

/-- Modelled from the spec: `map_remove` deletes the key's entry from its
bucket chain. -/
def hmapRemove (m : HMap) (k : Nat) : HMap :=
  ⟨m.nbuckets,
   m.buckets.set (k % m.nbuckets)
     (bucketErase k (m.buckets.getD (k % m.nbuckets) []))⟩

/-- Modelled from the spec: `map_lookup` searches the key's bucket chain;
`none` models the null iterator ("finds nothing"). -/
def hmapLookup (m : HMap) (k : Nat) : Option Nat :=
  bucketFind k (m.buckets.getD (k % m.nbuckets) [])

/-- The structural invariant of a well-formed table: a positive number of
buckets, one chain per bucket, and every entry sits in the bucket selected
by its key's hash. -/
def HMapInv (m : HMap) : Prop :=
  0 < m.nbuckets ∧ m.buckets.length = m.nbuckets ∧
  ∀ i : Fin m.buckets.length, ∀ e ∈ m.buckets.get i, e.1 % m.nbuckets = i.val

/-- A map operation: insertion or removal. -/
inductive MapOp where
  | ins (k v : Nat)
  | del (k : Nat)
deriving Repr, DecidableEq

/-- Runs a sequence of operations on the hash map. -/
def hmapRun (m : HMap) : List MapOp → HMap
  | [] => m
  | .ins k v :: rest => hmapRun (hmapInsert m k v) rest
  | .del k :: rest => hmapRun (hmapRemove m k) rest

/-- The reference semantics of one operation on an abstract partial
mapping from keys to values. -/
def mapOpApply (f : Nat → Option Nat) : MapOp → Nat → Option Nat
  | .ins k v => fun q => if q = k then some v else f q
  | .del k => fun q => if q = k then none else f q

/-- The reference semantics of an operation sequence, starting from the
empty mapping. -/
def mapOpsModel (ops : List MapOp) : Nat → Option Nat :=
  ops.foldl mapOpApply fun _ => none

/-! ## JSON values (`src/mn/include/mn/Json.h`)

`mn::json::Value` is a tagged union over null, bool, number (`float`),
string, array (`Buf<Value>*`) and object (`Map<Str, Value>*`); the heap
indirections of the C++ representation are flattened into one inductive
type.  The `Map<Str, Value>` operations used by `Json.h` (`map_lookup`,
`map_insert`) are not among the sources; they are modelled from the spec
as first-match lookup and overwrite-or-append insertion over the entry
sequence.  Since the Lean embedding has no explicit heap, each mutating
helper additionally returns the list of `Value`s it passed to
`value_free`, so that ownership transfers stay observable. -/

/-- The JSON value tagged union of `mn::json::Value`. -/
inductive JValue where
  | null
  | bool (b : Bool)
  | number (x : Float)
  | string (s : String)
  | array (items : List JValue)
  | object (entries : List (String × JValue))

/-- `mn::str_from_c`: builds an owned string from a C string; at the value
level this is the identity on the character data. -/
def strFromC (s : String) : String := s

/-- `mn::clone` on `Str`: an owned copy with the same character data. -/
def strClone (s : String) : String := s

/-- Modelled from the spec: `map_lookup` on `Map<Str, Value>` returns the
entry of the given key, or nothing. -/
def jmapLookup (k : String) : List (String × JValue) → Option JValue
  | [] => none
  | (k1, v1) :: rest => if k1 = k then some v1 else jmapLookup k rest

/-- Modelled from the spec: `map_insert` on `Map<Str, Value>` stores the
value under the key, overwriting in place when the key is present. -/
def jmapInsert (k : String) (v : JValue) : List (String × JValue) → List (String × JValue)
  | [] => [(k, v)]
  | (k1, v1) :: rest =>
    if k1 = k then (k, v) :: rest else (k1, v1) :: jmapInsert k v rest

/-- `value_object_insert(Value&, const Str&, Value)`: when the key is
already present, frees the existing entry's value and overwrites it in
place; otherwise inserts the value under a clone of the key.  Returns the
new entry sequence and the values handed to `value_free`. -/
def value_object_insert_str (entries : List (String × JValue)) (key : String)
    (v : JValue) : List (String × JValue) × List JValue :=
  match jmapLookup key entries with
  | some old => (jmapInsert key v entries, [old])
  | none => (jmapInsert (strClone key) v entries, [])

/-- `value_object_insert(Value&, const char*, Value)`: unconditionally
calls `map_insert` with a freshly created key string; no existing-key
check and no `value_free` call. -/
def value_object_insert_cstr (entries : List (String × JValue)) (key : String)
    (v : JValue) : List (String × JValue) × List JValue :=
  (jmapInsert (strFromC key) v entries, [])

/-- `value_object_lookup(Value&, const Str&)`: searches for a key inside
the object, null when absent. -/
def value_object_lookup (entries : List (String × JValue)) (key : String) :
    Option JValue :=
  jmapLookup key entries

/-- `value_array_at`: `return *(self.as_array->ptr + index)` — no kind
check, no bounds check.  Reading `as_array` of a non-array value and
reading past `count` are undefined behaviour in the C++ source; both are
modelled by `none`. -/
def value_array_at (self : JValue) (index : Nat) : Option JValue :=
  match self with
  | .array items => items.get? index
  | _ => none

/-! ## Theorems -/

theorem le_alignUp (n a : Nat) : n ≤ alignUp n a := by
  unfold alignUp
  split
  · exact Nat.le_refl n
  · rename_i ha
    have hpos : 0 < a := Nat.pos_of_ne_zero ha
    have hmod := Nat.mod_lt (n + a - 1) hpos
    have hdm := Nat.div_add_mod (n + a - 1) a
    have hcomm := Nat.mul_comm ((n + a - 1) / a) a
    omega

theorem alignUp_pos (n a : Nat) (h : 0 < n) : 0 < alignUp n a :=
  Nat.lt_of_lt_of_le h (le_alignUp n a)

/-- C1: for every allocator variant, `allocate(size, align)` signals an
unsatisfiable request only through the returned block: a failed request
yields a null block (`address == null` implies `size == 0`), and a
successful one yields a non-null address with a non-zero size of at least
the requested size.  The function is total, so no call ever throws. -/
theorem allocate_null_on_failure_sized_on_success (a : Allocator) (size align : Nat)
    (hs : 0 < size) :
    ((a.allocate size align).1.addr = none → (a.allocate size align).1.size = 0) ∧
    ((a.allocate size align).1.addr ≠ none →
      size ≤ (a.allocate size align).1.size ∧ 0 < (a.allocate size align).1.size) := by
  induction a with
  | general s =>
    simp only [Allocator.allocate, generalAlloc]
    split
    · simp
      omega
    · simp [Block.null]
  | stack s =>
    simp only [Allocator.allocate, stackAlloc]
    split
    · simpa using ⟨le_alignUp size align, alignUp_pos size align hs⟩
    · simp [Block.null]
  | arena s =>
    simp only [Allocator.allocate, arenaAlloc]
    cases s.buckets.getLast? with
    | some bk =>
      simp only
      split
      · simpa using ⟨le_alignUp size align, alignUp_pos size align hs⟩
      · split
        · simpa using ⟨le_alignUp size align, alignUp_pos size align hs⟩
        · simp [Block.null]
    | none =>
      simp only
      split
      · simpa using ⟨le_alignUp size align, alignUp_pos size align hs⟩
      · simp [Block.null]
  | pool s =>
    simp only [Allocator.allocate]
    split
    · rename_i hle
      cases hget : poolGet s with
      | mk o s1 =>
        cases o with
        | some p => simp [hget]; omega
        | none => simp [hget, Block.null]
    · simp [Block.null]
  | leak inner out ih =>
    simp only [Allocator.allocate]
    cases haddr : (inner.allocate size align).1.addr with
    | some p =>
      simp only [haddr]
      exact ⟨by simp [haddr], fun _ => ih.2 (by simp [haddr])⟩
    | none =>
      simp only [haddr]
      exact ⟨fun _ => ih.1 haddr, by simp [haddr]⟩

/-- Witness for C1 at a concrete input: a stack allocator with capacity
1024 and a request of 4 bytes aligned to 4. -/
theorem allocate_null_on_failure_sized_on_success_witness :
    0 < 4 ∧
    (((Allocator.stack ⟨1024, 0⟩).allocate 4 4).1.addr = none →
      ((Allocator.stack ⟨1024, 0⟩).allocate 4 4).1.size = 0) ∧
    (((Allocator.stack ⟨1024, 0⟩).allocate 4 4).1.addr ≠ none →
      4 ≤ ((Allocator.stack ⟨1024, 0⟩).allocate 4 4).1.size ∧
      0 < ((Allocator.stack ⟨1024, 0⟩).allocate 4 4).1.size) :=
  ⟨by decide,
   allocate_null_on_failure_sized_on_success (.stack ⟨1024, 0⟩) 4 4 (by decide)⟩

/-- C3: an allocation request exceeding the stack allocator's remaining
capacity returns a null block and leaves the allocator state (in
particular the cursor) unchanged. -/
theorem stack_alloc_exceeding_capacity_is_noop (s : StackState) (size align : Nat)
    (h : s.cap - s.cursor < size) :
    stackAlloc s size align = (Block.null, s) := by
  have hle := le_alignUp size align
  unfold stackAlloc
  dsimp only
  split
  · omega
  · rfl

/-- Witness for C3: requesting 9 bytes from an empty 8-byte stack
allocator fails and leaves the state unchanged. -/
theorem stack_alloc_exceeding_capacity_is_noop_witness :
    (8 : Nat) - 0 < 9 ∧
    stackAlloc ⟨8, 0⟩ 9 1 = (Block.null, ⟨8, 0⟩) :=
  ⟨by decide, stack_alloc_exceeding_capacity_is_noop ⟨8, 0⟩ 9 1 (by decide)⟩

theorem stackReleaseSeq_append (l1 l2 : List Block) :
    ∀ s : StackState,
      stackReleaseSeq s (l1 ++ l2) =
        (stackReleaseSeq s l1).bind fun s1 => stackReleaseSeq s1 l2 := by
  induction l1 with
  | nil => intro s; simp [stackReleaseSeq]
  | cons b rest ih =>
    intro s
    simp only [List.cons_append, stackReleaseSeq]
    cases stackRelease s b with
    | none => simp
    | some s1 => simpa using ih s1

/-- C2: for every sequence of allocation requests that a stack allocator
satisfies within its buffer capacity, releasing the returned blocks
strictly in reverse allocation order always succeeds, and restores the
allocator state — in particular the cursor — to its pre-allocation
value. -/
theorem stack_release_in_reverse_order_restores_state (reqs : List (Nat × Nat)) :
    ∀ (s s1 : StackState) (bs : List Block),
      stackAllocSeq s reqs = some (bs, s1) →
      stackReleaseSeq s1 bs.reverse = some s := by
  induction reqs with
  | nil =>
    intro s s1 bs h
    simp only [stackAllocSeq, Option.some_inj] at h
    cases h
    simp [stackReleaseSeq]
  | cons r rest ih =>
    intro s s1 bs h
    obtain ⟨sz, al⟩ := r
    unfold stackAllocSeq stackAlloc at h
    dsimp only at h
    by_cases hc : s.cursor + alignUp sz al ≤ s.cap
    · rw [if_pos hc] at h
      dsimp only at h
      cases hrest : stackAllocSeq ⟨s.cap, s.cursor + alignUp sz al⟩ rest with
      | none => rw [hrest] at h; cases h
      | some p =>
        obtain ⟨bs1, s2⟩ := p
        rw [hrest] at h
        simp only [Option.some_inj] at h
        cases h
        rw [List.reverse_cons, stackReleaseSeq_append, ih _ _ _ hrest]
        simp [stackReleaseSeq, stackRelease]
    · rw [if_neg hc] at h
      dsimp only [Block.null] at h
      cases h

/-- Witness for C2: a 1024-byte stack allocator serving one 512-byte
request, released in (trivially reverse) order. -/
theorem stack_release_in_reverse_order_restores_state_witness :
    stackAllocSeq ⟨1024, 0⟩ [(512, 1)] =
      some ([⟨some 0, 512⟩], ⟨1024, 512⟩) ∧
    stackReleaseSeq ⟨1024, 512⟩ [Block.mk (some 0) 512].reverse = some ⟨1024, 0⟩ :=
  ⟨by decide,
   stack_release_in_reverse_order_restores_state [(512, 1)] ⟨1024, 0⟩ ⟨1024, 512⟩
     [⟨some 0, 512⟩] (by decide)⟩

/-- C4: on a pool allocator, releasing the slot address `p` returned by an
allocation and then allocating again with no intervening allocations
yields exactly `p` again (LIFO reuse of the most recently freed slot). -/
theorem pool_get_put_get_same_address (s : PoolState) (p : Nat) (s1 : PoolState)
    (_h : poolGet s = (some p, s1)) :
    (poolGet (poolPut s1 p)).1 = some p := by
  simp [poolGet, poolPut]

/-- Witness for C4: a fresh `int`-slot pool hands out the first slot of a
new page, and reuses it after a put. -/
theorem pool_get_put_get_same_address_witness :
    poolGet ⟨4, 2, [], 0⟩ = (some 0, ⟨4, 2, [4], 8⟩) ∧
    (poolGet (poolPut ⟨4, 2, [4], 8⟩ 0)).1 = some 0 :=
  ⟨by decide,
   pool_get_put_get_same_address ⟨4, 2, [], 0⟩ 0 ⟨4, 2, [4], 8⟩ (by decide)⟩

/-- C5: on an arena allocator, `release` is a no-op for every block: the
bucket sequence (hence every bucket's used offset and the allocation
cursor) is unchanged and the call always succeeds. -/
theorem arena_release_is_noop (s : ArenaState) (b : Block) :
    Allocator.release (.arena s) b = some (.arena s) :=
  rfl

/-- C6: pushing makes the pushed allocator the top entry returned by
`current`; `current` does not mutate the stack; `pop` removes and returns
the top entry, restoring the previously pushed entry; the freshly seeded
stack's current entry is the default General allocator. -/
theorem ctx_push_current_pop (ctx : List Allocator) (a : Allocator) :
    (ctxCurrent (ctxPush ctx a)).1 = some a ∧
    (ctxCurrent (ctxPush ctx a)).2 = ctxPush ctx a ∧
    ctxPop (ctxPush ctx a) = some (a, ctx) ∧
    (ctxCurrent ctxInit).1 = some generalDefault :=
  ⟨rfl, rfl, rfl, rfl⟩

/-- C7: a container captures exactly one allocator at construction — the
explicit argument, or `current()` at that instant — and every later
growth, shrink, and destruction routes through that captured allocator
for every ambient context stack, in particular after the captured
allocator was popped and any other allocator pushed. -/
theorem container_routes_through_captured_allocator
    (ctx ambient : List Allocator) (a b : Allocator) :
    (containerNew (ctxPush ctx a)).alloc = a ∧
    (containerNewWith a).alloc = a ∧
    (containerGrow (containerNew (ctxPush ctx a)) (ctxPush ambient b)).2 = a ∧
    (containerShrink (containerNew (ctxPush ctx a)) (ctxPush ambient b)).2 = a ∧
    containerDestroy (containerNew (ctxPush ctx a)) (ctxPush ambient b) = a :=
  ⟨rfl, rfl, rfl, rfl, rfl⟩

theorem getD_set_self {α : Type} (l : List α) (i : Nat) (a d : α)
    (h : i < l.length) : (l.set i a).getD i d = a := by
  rw [List.getD_eq_getElem?_getD]
  simp [List.getElem?_set_self, h]

theorem getD_set_ne {α : Type} (l : List α) (i j : Nat) (a d : α)
    (h : i ≠ j) : (l.set i a).getD j d = l.getD j d := by
  rw [List.getD_eq_getElem?_getD, List.getD_eq_getElem?_getD]
  rw [List.getElem?_set_ne h]

theorem bucketFind_eq_none_of_all_ne (k : Nat) :
    ∀ l : List (Nat × Nat), (∀ e ∈ l, e.1 ≠ k) → bucketFind k l = none := by
  intro l
  induction l with
  | nil => intro _; rfl
  | cons e rest ih =>
    intro h
    obtain ⟨k1, v1⟩ := e
    have hne : k1 ≠ k := h (k1, v1) (by simp)
    simp only [bucketFind, hne, if_false]
    exact ih fun e he => h e (by simp [he])

theorem bucketFind_append_of_left_ne (k : Nat) (l1 l2 : List (Nat × Nat))
    (h : ∀ e ∈ l1, e.1 ≠ k) : bucketFind k (l1 ++ l2) = bucketFind k l2 := by
  induction l1 with
  | nil => simp
  | cons e rest ih =>
    obtain ⟨k1, v1⟩ := e
    have hne : k1 ≠ k := h (k1, v1) (by simp)
    simp only [List.cons_append, bucketFind, hne, if_false]
    exact ih fun e he => h e (by simp [he])

theorem bucketFind_append_of_right_ne (k : Nat) (l1 l2 : List (Nat × Nat))
    (h : ∀ e ∈ l2, e.1 ≠ k) : bucketFind k (l1 ++ l2) = bucketFind k l1 := by
  induction l1 with
  | nil => simpa using bucketFind_eq_none_of_all_ne k l2 h
  | cons e rest ih =>
    obtain ⟨k1, v1⟩ := e
    by_cases hk : k1 = k
    · simp [bucketFind, hk]
    · simp only [List.cons_append, bucketFind, hk, if_false]
      exact ih

theorem bucketFind_bucketInsert (k v q : Nat) :
    ∀ l : List (Nat × Nat),
      bucketFind q (bucketInsert k v l) = if q = k then some v else bucketFind q l := by
  intro l
  induction l with
  | nil =>
    simp only [bucketInsert, bucketFind]
    by_cases hq : q = k
    · subst hq
      simp
    · have hkq : ¬ k = q := fun h => hq h.symm
      simp [hq, hkq]
  | cons e rest ih =>
    obtain ⟨k1, v1⟩ := e
    simp only [bucketInsert]
    by_cases hk : k1 = k
    · subst hk
      simp only [if_pos rfl, bucketFind]
      by_cases hq : q = k1
      · subst hq
        simp
      · have hkq : ¬ k1 = q := fun h => hq h.symm
        simp [hq, hkq]
    · simp only [if_neg hk, bucketFind]
      by_cases hq : k1 = q
      · have hqk : ¬ q = k := fun h => hk (hq.trans h)
        rw [if_pos hq, if_neg hqk, if_pos hq]
      · rw [if_neg hq, ih]
        by_cases hqk : q = k
        · rw [if_pos hqk, if_pos hqk]
        · rw [if_neg hqk, if_neg hqk, if_neg hq]

theorem bucketFind_bucketErase (k q : Nat) :
    ∀ l : List (Nat × Nat),
      bucketFind q (bucketErase k l) = if q = k then none else bucketFind q l := by
  intro l
  induction l with
  | nil =>
    simp only [bucketErase, bucketFind]
    split <;> rfl
  | cons e rest ih =>
    obtain ⟨k1, v1⟩ := e
    simp only [bucketErase, bucketFind]
    by_cases hk : k1 = k
    · subst hk
      rw [if_pos rfl, ih]
      by_cases hq : q = k1
      · rw [if_pos hq, if_pos hq]
      · have hkq : ¬ k1 = q := fun h => hq h.symm
        rw [if_neg hq, if_neg hq, if_neg hkq]
    · rw [if_neg hk]
      simp only [bucketFind]
      by_cases hq : k1 = q
      · have hqk : ¬ q = k := fun h => hk (hq.trans h)
        rw [if_pos hq, if_neg hqk, if_pos hq]
      · rw [if_neg hq, ih]
        by_cases hqk : q = k
        · rw [if_pos hqk, if_pos hqk]
        · rw [if_neg hqk, if_neg hqk, if_neg hq]

theorem mem_bucketInsert (k v : Nat) :
    ∀ (l : List (Nat × Nat)) (e : Nat × Nat),
      e ∈ bucketInsert k v l → e = (k, v) ∨ e ∈ l := by
  intro l
  induction l with
  | nil => intro e he; simpa [bucketInsert] using he
  | cons e1 rest ih =>
    obtain ⟨k1, v1⟩ := e1
    intro e he
    by_cases hk : k1 = k
    · simp only [bucketInsert, hk, if_pos rfl] at he
      rcases List.mem_cons.1 he with h | h
      · exact Or.inl h
      · exact Or.inr (List.mem_cons.2 (Or.inr h))
    · simp only [bucketInsert, if_neg hk] at he
      rcases List.mem_cons.1 he with h | h
      · exact Or.inr (List.mem_cons.2 (Or.inl h))
      · rcases ih e h with h1 | h1
        · exact Or.inl h1
        · exact Or.inr (List.mem_cons.2 (Or.inr h1))

theorem mem_bucketErase (k : Nat) :
    ∀ (l : List (Nat × Nat)) (e : Nat × Nat), e ∈ bucketErase k l → e ∈ l := by
  intro l
  induction l with
  | nil => intro e he; simp [bucketErase] at he
  | cons e1 rest ih =>
    obtain ⟨k1, v1⟩ := e1
    intro e he
    by_cases hk : k1 = k
    · simp only [bucketErase, hk, if_pos rfl] at he
      exact List.mem_cons.2 (Or.inr (ih e he))
    · simp only [bucketErase, if_neg hk] at he
      rcases List.mem_cons.1 he with h | h
      · exact List.mem_cons.2 (Or.inl h)
      · exact List.mem_cons.2 (Or.inr (ih e h))

theorem bucketFind_filter (k : Nat) (p : Nat × Nat → Bool)
    (hp : ∀ v, p (k, v) = true) :
    ∀ l : List (Nat × Nat), bucketFind k (l.filter p) = bucketFind k l := by
  intro l
  induction l with
  | nil => rfl
  | cons e rest ih =>
    obtain ⟨k1, v1⟩ := e
    rw [List.filter_cons]
    by_cases hk : k1 = k
    · subst hk
      rw [if_pos (hp v1)]
      simp [bucketFind]
    · cases hpe : p (k1, v1) with
      | true => simp [bucketFind, hk, ih]
      | false => simp [bucketFind, hk, ih]

theorem bucketFind_flatten_aux (k n : Nat) :
    ∀ (bs : List (List (Nat × Nat))) (j : Nat),
      (∀ i : Fin bs.length, ∀ e ∈ bs.get i, e.1 % n = j + i.val) →
      bucketFind k bs.flatten = bucketFind k (bs.getD (k % n - j) []) := by
  intro bs
  induction bs with
  | nil => intro j _; rfl
  | cons b rest ih =>
    intro j h
    have hb : ∀ e ∈ b, e.1 % n = j := by
      intro e he
      simpa using h ⟨0, by simp⟩ e he
    have hrest : ∀ i : Fin rest.length, ∀ e ∈ rest.get i, e.1 % n = (j + 1) + i.val := by
      intro i e he
      have hstep : e.1 % n = j + (i.val + 1) :=
        h ⟨i.val + 1, Nat.succ_lt_succ i.isLt⟩ e he
      omega
    rw [List.flatten_cons]
    by_cases hj : k % n = j
    · have hne : ∀ e ∈ rest.flatten, e.1 ≠ k := by
        intro e he hek
        obtain ⟨l, hl, hel⟩ := List.mem_flatten.1 he
        obtain ⟨i, hi⟩ := List.mem_iff_get.1 hl
        have hmod := hrest i e (hi ▸ hel)
        rw [hek] at hmod
        omega
      rw [bucketFind_append_of_right_ne k b rest.flatten hne]
      have hz : k % n - j = 0 := by omega
      rw [hz]
      rfl
    · have hbne : ∀ e ∈ b, e.1 ≠ k := by
        intro e he hek
        have := hb e he
        rw [hek] at this
        exact hj this
      rw [bucketFind_append_of_left_ne k b rest.flatten hbne]
      by_cases hlt : j < k % n
      · rw [ih (j + 1) hrest]
        have hidx : k % n - j = (k % n - (j + 1)) + 1 := by omega
        rw [hidx]
        rfl
      · have hgt : k % n < j := by omega
        have hz1 : k % n - j = 0 := by omega
        have hz2 : k % n - (j + 1) = 0 := by omega
        rw [ih (j + 1) hrest, hz1, hz2]
        cases rest with
        | nil =>
          show bucketFind k [] = bucketFind k b
          rw [bucketFind_eq_none_of_all_ne k b hbne]
          rfl
        | cons b2 rest2 =>
          have hb2 : ∀ e ∈ b2, e.1 % n = j + 1 := by
            intro e he
            simpa using hrest ⟨0, by simp⟩ e he
          have hb2ne : ∀ e ∈ b2, e.1 ≠ k := by
            intro e he hek
            have := hb2 e he
            rw [hek] at this
            omega
          have h1 : bucketFind k (([] : List (List (Nat × Nat))).getD 0 []) = none := rfl
          rw [show ((b2 :: rest2).getD 0 []) = b2 from rfl,
              show ((b :: b2 :: rest2).getD 0 []) = b from rfl]
          rw [bucketFind_eq_none_of_all_ne k b2 hb2ne,
              bucketFind_eq_none_of_all_ne k b hbne]

theorem hmapLookup_eq_bucketFind_flatten (m : HMap) (hinv : HMapInv m) (k : Nat) :
    bucketFind k m.buckets.flatten = hmapLookup m k := by
  have h := bucketFind_flatten_aux k m.nbuckets m.buckets 0 ?_
  · simpa [hmapLookup] using h
  · intro i e he
    simpa using hinv.2.2 i e he

theorem hmapDistribute_getD (n : Nat) (entries : List (Nat × Nat)) (i : Nat)
    (hi : i < n) :
    (hmapDistribute n entries).getD i [] =
      entries.filter fun e => e.1 % n = i := by
  unfold hmapDistribute
  rw [List.getD_eq_getElem?_getD, List.getElem?_map, List.getElem?_range hi]
  rfl

theorem hmapLookup_rehash (m : HMap) (hinv : HMapInv m) (k : Nat) :
    hmapLookup (hmapRehash m) k = hmapLookup m k := by
  have hn : 0 < m.nbuckets := hinv.1
  have hk : k % (m.nbuckets * 2) < m.nbuckets * 2 := Nat.mod_lt _ (by omega)
  rw [show hmapLookup (hmapRehash m) k =
        bucketFind k ((hmapDistribute (m.nbuckets * 2) m.buckets.flatten).getD
          (k % (m.nbuckets * 2)) []) from rfl]
  rw [hmapDistribute_getD _ _ _ hk]
  rw [bucketFind_filter k _ (fun v => by simp)]
  exact hmapLookup_eq_bucketFind_flatten m hinv k

theorem HMapInv_rehash (m : HMap) (hinv : HMapInv m) : HMapInv (hmapRehash m) := by
  refine ⟨?_, ?_, ?_⟩
  · have := hinv.1
    simp only [hmapRehash]
    omega
  · simp [hmapRehash, hmapDistribute]
  · intro i e he
    simp only [hmapRehash, hmapDistribute] at i he ⊢
    rw [List.get_eq_getElem, List.getElem_map] at he
    have hi := i.isLt
    simp only [List.length_map, List.length_range] at hi
    rw [List.getElem_range] at he
    simp only [List.mem_filter, decide_eq_true_eq] at he
    exact he.2

theorem HMapInv_hmapInsertRaw (m : HMap) (hinv : HMapInv m) (k v : Nat) :
    HMapInv (hmapInsertRaw m k v) := by
  obtain ⟨hn, hlen, hbuck⟩ := hinv
  have hkn : k % m.nbuckets < m.buckets.length := by
    rw [hlen]
    exact Nat.mod_lt _ hn
  refine ⟨hn, by simpa [hmapInsertRaw] using hlen, ?_⟩
  intro i e he
  simp only [hmapInsertRaw] at i he ⊢
  obtain ⟨ival, hival⟩ := i
  rw [List.get_eq_getElem] at he
  show e.1 % m.nbuckets = ival
  have hi : ival < m.buckets.length := by simpa using hival
  by_cases hik : ival = k % m.nbuckets
  · subst hik
    rw [List.getElem_set_self hival] at he
    rcases mem_bucketInsert k v _ e he with h1 | h1
    · rw [h1]
    · rw [List.getD_eq_getElem m.buckets [] hkn] at h1
      exact hbuck ⟨k % m.nbuckets, hkn⟩ e h1
  · rw [List.getElem_set_ne (fun h => hik h.symm)] at he
    exact hbuck ⟨ival, hi⟩ e he

theorem hmapLookup_hmapInsertRaw (m : HMap) (hinv : HMapInv m) (k v q : Nat) :
    hmapLookup (hmapInsertRaw m k v) q = if q = k then some v else hmapLookup m q := by
  obtain ⟨hn, hlen, _⟩ := hinv
  have hkn : k % m.nbuckets < m.buckets.length := by
    rw [hlen]
    exact Nat.mod_lt _ hn
  show bucketFind q ((m.buckets.set (k % m.nbuckets)
      (bucketInsert k v (m.buckets.getD (k % m.nbuckets) []))).getD
        (q % m.nbuckets) []) = _
  by_cases hq : q % m.nbuckets = k % m.nbuckets
  · rw [hq, getD_set_self _ _ _ _ hkn, bucketFind_bucketInsert]
    by_cases hqk : q = k
    · rw [if_pos hqk, if_pos hqk]
    · rw [if_neg hqk, if_neg hqk]
      show bucketFind q (m.buckets.getD (k % m.nbuckets) []) = hmapLookup m q
      rw [← hq]
      rfl
  · have hqk : ¬ q = k := fun h => hq (by rw [h])
    rw [getD_set_ne _ _ _ _ _ (fun h => hq h.symm), if_neg hqk]
    rfl

theorem hmapLookup_hmapRemove (m : HMap) (hinv : HMapInv m) (k q : Nat) :
    hmapLookup (hmapRemove m k) q = if q = k then none else hmapLookup m q := by
  obtain ⟨hn, hlen, _⟩ := hinv
  have hkn : k % m.nbuckets < m.buckets.length := by
    rw [hlen]
    exact Nat.mod_lt _ hn
  show bucketFind q ((m.buckets.set (k % m.nbuckets)
      (bucketErase k (m.buckets.getD (k % m.nbuckets) []))).getD
        (q % m.nbuckets) []) = _
  by_cases hq : q % m.nbuckets = k % m.nbuckets
  · rw [hq, getD_set_self _ _ _ _ hkn, bucketFind_bucketErase]
    by_cases hqk : q = k
    · rw [if_pos hqk, if_pos hqk]
    · rw [if_neg hqk, if_neg hqk]
      show bucketFind q (m.buckets.getD (k % m.nbuckets) []) = hmapLookup m q
      rw [← hq]
      rfl
  · have hqk : ¬ q = k := fun h => hq (by rw [h])
    rw [getD_set_ne _ _ _ _ _ (fun h => hq h.symm), if_neg hqk]
    rfl

theorem HMapInv_hmapRemove (m : HMap) (hinv : HMapInv m) (k : Nat) :
    HMapInv (hmapRemove m k) := by
  obtain ⟨hn, hlen, hbuck⟩ := hinv
  have hkn : k % m.nbuckets < m.buckets.length := by
    rw [hlen]
    exact Nat.mod_lt _ hn
  refine ⟨hn, by simpa [hmapRemove] using hlen, ?_⟩
  intro i e he
  simp only [hmapRemove] at i he ⊢
  obtain ⟨ival, hival⟩ := i
  rw [List.get_eq_getElem] at he
  show e.1 % m.nbuckets = ival
  have hi : ival < m.buckets.length := by simpa using hival
  by_cases hik : ival = k % m.nbuckets
  · subst hik
    rw [List.getElem_set_self hival] at he
    have h1 := mem_bucketErase k _ e he
    rw [List.getD_eq_getElem m.buckets [] hkn] at h1
    exact hbuck ⟨k % m.nbuckets, hkn⟩ e h1
  · rw [List.getElem_set_ne (fun h => hik h.symm)] at he
    exact hbuck ⟨ival, hi⟩ e he

theorem hmapLookup_hmapInsert (m : HMap) (hinv : HMapInv m) (k v q : Nat) :
    hmapLookup (hmapInsert m k v) q = if q = k then some v else hmapLookup m q := by
  unfold hmapInsert
  dsimp only
  split
  · rw [hmapLookup_hmapInsertRaw _ (HMapInv_rehash m hinv) k v q,
        hmapLookup_rehash m hinv q]
  · exact hmapLookup_hmapInsertRaw m hinv k v q

theorem HMapInv_hmapInsert (m : HMap) (hinv : HMapInv m) (k v : Nat) :
    HMapInv (hmapInsert m k v) := by
  unfold hmapInsert
  dsimp only
  split
  · exact HMapInv_hmapInsertRaw _ (HMapInv_rehash m hinv) k v
  · exact HMapInv_hmapInsertRaw m hinv k v

theorem HMapInv_hmapEmpty : HMapInv hmapEmpty := by
  refine ⟨by decide, by decide, ?_⟩
  intro i e he
  have : hmapEmpty.buckets.get i = [] := by
    have hlt := i.isLt
    simp only [hmapEmpty] at hlt ⊢
    rw [List.get_eq_getElem, List.getElem_replicate]
  rw [this] at he
  cases he

theorem hmapLookup_hmapEmpty (q : Nat) : hmapLookup hmapEmpty q = none := by
  have hq : q % 8 < 8 := Nat.mod_lt _ (by decide)
  show bucketFind q ((List.replicate 8 ([] : List (Nat × Nat))).getD (q % 8) []) = none
  rw [List.getD_eq_getElem _ [] (by simpa using hq), List.getElem_replicate]
  rfl

theorem hmapRun_models (ops : List MapOp) :
    ∀ (m : HMap) (f : Nat → Option Nat),
      HMapInv m → (∀ q, hmapLookup m q = f q) →
      HMapInv (hmapRun m ops) ∧
      ∀ q, hmapLookup (hmapRun m ops) q = (ops.foldl mapOpApply f) q := by
  induction ops with
  | nil =>
    intro m f hinv hf
    exact ⟨hinv, fun q => by simpa [hmapRun] using hf q⟩
  | cons op rest ih =>
    intro m f hinv hf
    cases op with
    | ins k v =>
      have hstep : ∀ q, hmapLookup (hmapInsert m k v) q = mapOpApply f (.ins k v) q := by
        intro q
        rw [hmapLookup_hmapInsert m hinv k v q]
        simp only [mapOpApply]
        split <;> simp_all
      exact ih (hmapInsert m k v) (mapOpApply f (.ins k v))
        (HMapInv_hmapInsert m hinv k v) hstep
    | del k =>
      have hstep : ∀ q, hmapLookup (hmapRemove m k) q = mapOpApply f (.del k) q := by
        intro q
        rw [hmapLookup_hmapRemove m hinv k q]
        simp only [mapOpApply]
        split <;> simp_all
      exact ih (hmapRemove m k) (mapOpApply f (.del k))
        (HMapInv_hmapRemove m hinv k) hstep

/-- C8: running any sequence of insertions and removals on the hash map —
including insertions that cross the load-factor threshold and trigger
rehashing — preserves all entries: looking up a key returns exactly what
the abstract last-write-wins model of the operation sequence associates
with it, so every inserted and not-removed key maps to its value and
every never-inserted or removed key finds nothing. -/
theorem hmap_lookup_agrees_with_model (ops : List MapOp) (q : Nat) :
    hmapLookup (hmapRun hmapEmpty ops) q = mapOpsModel ops q :=
  (hmapRun_models ops hmapEmpty (fun _ => none) HMapInv_hmapEmpty
    hmapLookup_hmapEmpty).2 q

theorem jmapLookup_jmapInsert_self (k : String) (v : JValue) :
    ∀ l : List (String × JValue), jmapLookup k (jmapInsert k v l) = some v := by
  intro l
  induction l with
  | nil => simp [jmapInsert, jmapLookup]
  | cons e rest ih =>
    obtain ⟨k1, v1⟩ := e
    by_cases hk : k1 = k
    · simp [jmapInsert, jmapLookup, hk]
    · simp [jmapInsert, jmapLookup, hk, ih]

theorem jmapInsert_length_of_found (k : String) (v old : JValue) :
    ∀ l : List (String × JValue), jmapLookup k l = some old →
      (jmapInsert k v l).length = l.length := by
  intro l
  induction l with
  | nil => intro h; cases h
  | cons e rest ih =>
    obtain ⟨k1, v1⟩ := e
    intro h
    by_cases hk : k1 = k
    · simp [jmapInsert, hk]
    · simp only [jmapLookup, hk, if_false] at h
      simp [jmapInsert, hk, ih h]

theorem jmapInsert_of_absent (k : String) (v : JValue) :
    ∀ l : List (String × JValue), jmapLookup k l = none →
      jmapInsert k v l = l ++ [(k, v)] := by
  intro l
  induction l with
  | nil => intro _; rfl
  | cons e rest ih =>
    obtain ⟨k1, v1⟩ := e
    intro h
    by_cases hk : k1 = k
    · simp [jmapLookup, hk] at h
    · simp only [jmapLookup, hk, if_false] at h
      simp [jmapInsert, hk, ih h]

/-- C9: the two `value_object_insert` overloads differ on an
already-present key.  The `Str` overload frees the existing entry's value
and overwrites it in place, leaving the entry count unchanged, and on an
absent key appends a clone of the key; the `const char*` overload performs
no existing-key check, frees nothing, and unconditionally calls
`map_insert` with a freshly created key string. -/
theorem value_object_insert_overload_difference
    (entries : List (String × JValue)) (key : String) (v : JValue) :
    (∀ old, jmapLookup key entries = some old →
      (value_object_insert_str entries key v).1.length = entries.length ∧
      jmapLookup key (value_object_insert_str entries key v).1 = some v ∧
      (value_object_insert_str entries key v).2 = [old] ∧
      (value_object_insert_str entries key v).2 ≠
        (value_object_insert_cstr entries key v).2) ∧
    (jmapLookup key entries = none →
      (value_object_insert_str entries key v).1 = entries ++ [(strClone key, v)] ∧
      (value_object_insert_str entries key v).2 = []) ∧
    value_object_insert_cstr entries key v =
      (jmapInsert (strFromC key) v entries, []) := by
  refine ⟨?_, ?_, rfl⟩
  · intro old h
    simp only [value_object_insert_str, h]
    refine ⟨jmapInsert_length_of_found key v old entries h,
            jmapLookup_jmapInsert_self key v entries, by trivial, ?_⟩
    simp [value_object_insert_cstr]
  · intro h
    simp only [value_object_insert_str, h]
    exact ⟨jmapInsert_of_absent key v entries h, by trivial⟩

/-- Witness for C9: inserting under the already-present key "a".  The
`Str` overload frees the old value and keeps the entry count at one; the
`const char*` overload frees nothing. -/
theorem value_object_insert_overload_difference_witness :
    jmapLookup "a" [("a", JValue.null)] = some JValue.null ∧
    (value_object_insert_str [("a", JValue.null)] "a" (JValue.bool true)).1.length = 1 ∧
    (value_object_insert_str [("a", JValue.null)] "a" (JValue.bool true)).2 =
      [JValue.null] ∧
    (value_object_insert_cstr [("a", JValue.null)] "a" (JValue.bool true)).2 = [] := by
  have h : jmapLookup "a" [("a", JValue.null)] = some JValue.null := by
    simp [jmapLookup]
  have hmain :=
    value_object_insert_overload_difference [("a", JValue.null)] "a" (JValue.bool true)
  have hpresent := hmain.1 JValue.null h
  exact ⟨h, hpresent.1, hpresent.2.2.1, by rw [hmain.2.2]⟩

/-- C10: `value_array_at` performs no bounds or kind check; under the
precondition that the value is an array and the index is within its
count, the access is well-defined and returns exactly the element at that
index (the out-of-range branch is unreachable). -/
theorem value_array_at_in_bounds (items : List JValue) (index : Nat)
    (h : index < items.length) :
    value_array_at (.array items) index = some (items.get ⟨index, h⟩) := by
  simp [value_array_at, List.get?_eq_get h]

/-- Witness for C10: reading index 0 of the one-element array `[null]`. -/
theorem value_array_at_in_bounds_witness :
    0 < [JValue.null].length ∧
    value_array_at (.array [JValue.null]) 0 = some JValue.null :=
  ⟨Nat.zero_lt_one, value_array_at_in_bounds [JValue.null] 0 Nat.zero_lt_one⟩

end Mn
